import Mathlib

/-
A shallow embedding of the day-7 circuit evaluator (src/7/src/main.rs).

Conventions of the embedding:
* u16 values are Nat, with explicit truncation mod 65536 exactly where the
  Rust u16 operations truncate.
* Rust panics (unwrap of an Err, the shift-overflow abort of a debug build,
  and the explicit circular-reference panic inside Circuit::get_value) are
  modelled as Option.none.  A recoverable Err value keeps its own Except
  layer, so an aborted computation and a returned error stay distinct.
* HashMap<String, Element> is modelled as an association list; get_value
  only observes the map through lookup / remove / insert on the key, so the
  list order is irrelevant to every statement below.
* The recursion of get_value is driven by an explicit fuel argument.  The
  Rust code removes one map entry before every nested call, so any fuel
  larger than the map size is never exhausted; Circuit.get_value
  instantiates the fuel at parts.length + 1.
* The println logging inside set_value / clear_value is dropped.
-/

inductive Input where
  | Value : Nat → Input
  | Element : String → Input
  | None : Input
  deriving DecidableEq

/-- The error type of the parsing functions (struct InvalidInput). -/
structure InvalidInput where
  deriving DecidableEq

/-- Accumulate a decimal value over characters, failing on a non-digit.
Mirrors the digit loop of u16::from_str. -/
def digitsToNat (cs : List Char) : Option Nat :=
  cs.foldl
    (fun acc c =>
      match acc with
      | Option.none => Option.none
      | some n => if c.isDigit then some (n * 10 + (c.toNat - 48)) else Option.none)
    (some 0)

/-- Rust u16::from_str: an optional leading plus sign, at least one digit,
and the value must fit in 16 bits (otherwise Err, hence Input::Element). -/
def parse_u16 (s : String) : Option Nat :=
  let cs := match s.data with
    | '+' :: rest => rest
    | cs => cs
  match cs with
  | [] => Option.none
  | _ =>
    match digitsToNat cs with
    | some v => if v < 65536 then some v else Option.none
    | Option.none => Option.none

/-- impl FromStr for Input: a token that parses as u16 is a Value, every
other token is an Element reference; this never fails. -/
def Input.from_str (s : String) : Input :=
  match parse_u16 s with
  | some v => Input.Value v
  | Option.none => Input.Element s

inductive Operation where
  | Value : Operation
  | Not : Operation
  | And : Operation
  | Or : Operation
  | LShift : Operation
  | RShift : Operation
  deriving DecidableEq

/-- impl FromStr for Operation: only the four binary operator names are
recognised; anything else is Err(InvalidInput), modelled as none here
because the only caller unwraps it (see ElementSpec.from_str). -/
def Operation.from_str (s : String) : Option Operation :=
  if s = "OR" then some Operation.Or
  else if s = "AND" then some Operation.And
  else if s = "LSHIFT" then some Operation.LShift
  else if s = "RSHIFT" then some Operation.RShift
  else Option.none

structure ElementSpec where
  left : Input
  right : Input
  op : Operation
  deriving DecidableEq

/-- Rust str::split(" "): segments between single-space separators; an empty
string yields one empty segment, adjacent spaces yield empty segments. -/
def splitSpaceAux : List Char → List Char → List String
  | [], acc => [String.mk acc.reverse]
  | c :: cs, acc =>
    if c = ' ' then String.mk acc.reverse :: splitSpaceAux cs []
    else splitSpaceAux cs (c :: acc)

def splitSpace (s : String) : List String :=
  splitSpaceAux s.data []

/-- impl FromStr for ElementSpec.  One token is a passthrough, two tokens a
NOT (the first token is discarded), three tokens a binary operation.  The
token-count mismatch returns Err(InvalidInput); the unrecognised operator in
the three-token case is unwrapped in the source, i.e. it panics (none). -/
def ElementSpec.from_str (s : String) : Option (Except InvalidInput ElementSpec) :=
  match splitSpace s with
  | [a] => some (Except.ok ⟨Input.from_str a, Input.None, Operation.Value⟩)
  | [_, b] => some (Except.ok ⟨Input.from_str b, Input.None, Operation.Not⟩)
  | [a, b, c] =>
    match Operation.from_str b with
    | some op => some (Except.ok ⟨Input.from_str a, Input.from_str c, op⟩)
    | Option.none => Option.none
  | _ => some (Except.error ⟨⟩)

/-- ElementSpec::evaluate on u16 operands.  The bitwise complement of a u16
value x is 65535 - x.  A shift by 16 or more positions overflows in Rust: a
debug build panics, which is modelled as none (a release build would instead
wrap the shift amount; either way the result is not a saturation to 0). -/
def ElementSpec.evaluate (spec : ElementSpec) (left right : Nat) : Option Nat :=
  match spec.op with
  | Operation.Value => some left
  | Operation.Not => some (65535 - left)
  | Operation.And => some (Nat.land left right)
  | Operation.Or => some (Nat.lor left right)
  | Operation.LShift => if right < 16 then some (left * 2 ^ right % 65536) else Option.none
  | Operation.RShift => if right < 16 then some (left / 2 ^ right) else Option.none

structure Element where
  spec : ElementSpec
  name : String
  value : Option Nat
  deriving DecidableEq

def Element.set_value (e : Element) (v : Nat) : Element :=
  { e with value := some v }

def Element.clear_value (e : Element) : Element :=
  { e with value := Option.none }

/-- HashMap lookup on the association list. -/
def lookupE : List (String × Element) → String → Option Element
  | [], _ => Option.none
  | (k, e) :: ps, n => if k = n then some e else lookupE ps n

/-- HashMap remove on the association list. -/
def eraseE : List (String × Element) → String → List (String × Element)
  | [], _ => []
  | (k, e) :: ps, n => if k = n then eraseE ps n else (k, e) :: eraseE ps n

structure Circuit where
  parts : List (String × Element)
  deriving DecidableEq

def Circuit.new : Circuit := ⟨[]⟩

/-- Circuit::add_element.  The source unwraps the ElementSpec parse, so both
an Err(InvalidInput) and a panic inside the parse abort add_element (none);
on success the node is inserted with an empty cache, overwriting any prior
node of the same name. -/
def Circuit.add_element (c : Circuit) (name spec : String) : Option Circuit :=
  match ElementSpec.from_str spec with
  | some (Except.ok sp) => some ⟨(name, ⟨sp, name, Option.none⟩) :: eraseE c.parts name⟩
  | _ => Option.none

/-- Circuit::get_value, with fuel driving the recursion.  A missing name
resolves to 0; a cached node returns its cache; otherwise the node is
removed from the map, its operands are resolved against the shrunken map
(left first, then right), the result is cached and the node reinserted.
The source panics if the reinsertion finds the name already present. -/
def get_valueF : Nat → Circuit → String → Option (Nat × Circuit)
  | 0, _, _ => Option.none
  | fuel+1, c, name =>
    match lookupE c.parts name with
    | Option.none => some (0, c)
    | some e =>
      match e.value with
      | some v => some (v, c)
      | Option.none =>
        match (match e.spec.left with
               | Input.None => some (0, (⟨eraseE c.parts name⟩ : Circuit))
               | Input.Value v => some (v, (⟨eraseE c.parts name⟩ : Circuit))
               | Input.Element n => get_valueF fuel ⟨eraseE c.parts name⟩ n) with
        | Option.none => Option.none
        | some (lv, c₂) =>
          match (match e.spec.right with
                 | Input.None => some (0, c₂)
                 | Input.Value v => some (v, c₂)
                 | Input.Element n => get_valueF fuel c₂ n) with
          | Option.none => Option.none
          | some (rv, c₃) =>
            match e.spec.evaluate lv rv with
            | Option.none => Option.none
            | some ret =>
              match lookupE c₃.parts name with
              | some _ => Option.none
              | Option.none => some (ret, ⟨(name, Element.set_value e ret) :: c₃.parts⟩)

/-- Circuit::resolve_input with explicit fuel for the reference case. -/
def resolve_inputF (fuel : Nat) (c : Circuit) (i : Input) : Option (Nat × Circuit) :=
  match i with
  | Input.None => some (0, c)
  | Input.Value v => some (v, c)
  | Input.Element n => get_valueF fuel c n

/-- Circuit::get_value at its canonical fuel: the Rust recursion removes one
entry from the map before every nested call, so parts.length + 1 steps are
never exhausted. -/
def Circuit.get_value (c : Circuit) (name : String) : Option (Nat × Circuit) :=
  get_valueF (c.parts.length + 1) c name

def Circuit.resolve_input (c : Circuit) (i : Input) : Option (Nat × Circuit) :=
  resolve_inputF (c.parts.length + 1) c i

/-- Circuit::clear_cache clears the cache of every node, keys unchanged. -/
def Circuit.clear_cache (c : Circuit) : Circuit :=
  ⟨c.parts.map (fun p => (p.1, p.2.clear_value))⟩

/-- Circuit::force_value sets the cache of the named node directly; a
missing name leaves the circuit unchanged. -/
def Circuit.force_value (c : Circuit) (name : String) (v : Nat) : Circuit :=
  ⟨c.parts.map (fun p => if p.1 = name then (p.1, p.2.set_value v) else p)⟩

/-- The specification-side valuation of a node, written from the words of
the spec (section 4.2, steps 1-4): a missing name is 0, a cached node is its
cache, and otherwise the node's operation is applied to the recursively
resolved values of its operands, a Literal operand resolving to its stored
value and an Absent operand to 0.  The fuel bounds the recursion depth, so
"the valuation succeeds at some fuel" states exactly that the dependency
closure unwinds in finitely many steps, i.e. that it is acyclic. -/
def denoteF : Nat → Circuit → String → Option Nat
  | 0, _, _ => Option.none
  | fuel+1, c, name =>
    match lookupE c.parts name with
    | Option.none => some 0
    | some e =>
      match e.value with
      | some v => some v
      | Option.none =>
        match (match e.spec.left with
               | Input.None => some 0
               | Input.Value v => some v
               | Input.Element n => denoteF fuel c n) with
        | Option.none => Option.none
        | some lv =>
          match (match e.spec.right with
                 | Input.None => some 0
                 | Input.Value v => some v
                 | Input.Element n => denoteF fuel c n) with
          | Option.none => Option.none
          | some rv => e.spec.evaluate lv rv

/-- The valuation of one operand, with the node valuation as parameter. -/
def denoteInput (f : String → Option Nat) : Input → Option Nat
  | Input.None => some 0
  | Input.Value v => some v
  | Input.Element n => f n

/-- One node's uncached evaluation looks up another: a is present and
uncached and b is referenced, directly or through such a chain. -/
inductive Uses (c : Circuit) : String → String → Prop where
  | direct : ∀ {a b : String} {e : Element},
      lookupE c.parts a = some e → e.value = Option.none →
      (e.spec.left = Input.Element b ∨ e.spec.right = Input.Element b) →
      Uses c a b
  | step : ∀ {a b d : String} {e : Element},
      lookupE c.parts a = some e → e.value = Option.none →
      (e.spec.left = Input.Element b ∨ e.spec.right = Input.Element b) →
      Uses c b d → Uses c a d

/-- Sanity of the parsing layer on concrete tokens. -/
theorem parsing_sanity :
    splitSpace "x AND y" = ["x", "AND", "y"] ∧
    splitSpace "" = [""] ∧
    parse_u16 "123" = some 123 ∧
    parse_u16 "70000" = Option.none ∧
    Input.from_str "123" = Input.Value 123 ∧
    Input.from_str "xy" = Input.Element "xy" ∧
    ElementSpec.from_str "x AND y" =
      some (Except.ok ⟨Input.Element "x", Input.Element "y", Operation.And⟩) :=
  ⟨rfl, rfl, rfl, rfl, rfl, rfl, rfl⟩

/-- The golden circuit of the source's test_number, built through
add_element exactly as the test does. -/
def goldenCircuit : Option Circuit :=
  (Circuit.new.add_element "x" "123").bind fun c =>
  (c.add_element "y" "456").bind fun c =>
  (c.add_element "d" "x AND y").bind fun c =>
  (c.add_element "e" "x OR y").bind fun c =>
  (c.add_element "f" "x LSHIFT 2").bind fun c =>
  (c.add_element "g" "y RSHIFT 2").bind fun c =>
  (c.add_element "h" "NOT x").bind fun c =>
  c.add_element "i" "NOT y"

/-- The embedding reproduces every assertion of the source's test_number
test, end to end through parsing and evaluation. -/
theorem golden_test_values :
    (goldenCircuit.bind fun c => (c.get_value "d").map Prod.fst) = some 72 ∧
    (goldenCircuit.bind fun c => (c.get_value "e").map Prod.fst) = some 507 ∧
    (goldenCircuit.bind fun c => (c.get_value "f").map Prod.fst) = some 492 ∧
    (goldenCircuit.bind fun c => (c.get_value "g").map Prod.fst) = some 114 ∧
    (goldenCircuit.bind fun c => (c.get_value "h").map Prod.fst) = some 65412 ∧
    (goldenCircuit.bind fun c => (c.get_value "i").map Prod.fst) = some 65079 ∧
    (goldenCircuit.bind fun c => (c.get_value "x").map Prod.fst) = some 123 ∧
    (goldenCircuit.bind fun c => (c.get_value "y").map Prod.fst) = some 456 :=
  ⟨rfl, rfl, rfl, rfl, rfl, rfl, rfl, rfl⟩

/-- The two-node dependency cycle of the spec's cycle-detection scenario:
p is a bare passthrough reference to q and q one to p. -/
def cyclePQ : Option Circuit :=
  (Circuit.new.add_element "p" "q").bind fun c => c.add_element "q" "p"

/-! Unfolding equations in terms of the named operand resolvers. -/

theorem denoteF_succ (g : Nat) (c : Circuit) (name : String) :
    denoteF (g+1) c name =
      match lookupE c.parts name with
      | Option.none => some 0
      | some e =>
        match e.value with
        | some v => some v
        | Option.none =>
          match denoteInput (denoteF g c) e.spec.left with
          | Option.none => Option.none
          | some lv =>
            match denoteInput (denoteF g c) e.spec.right with
            | Option.none => Option.none
            | some rv => e.spec.evaluate lv rv := rfl

theorem get_valueF_succ (F : Nat) (c : Circuit) (name : String) :
    get_valueF (F+1) c name =
      match lookupE c.parts name with
      | Option.none => some (0, c)
      | some e =>
        match e.value with
        | some v => some (v, c)
        | Option.none =>
          match resolve_inputF F ⟨eraseE c.parts name⟩ e.spec.left with
          | Option.none => Option.none
          | some (lv, c₂) =>
            match resolve_inputF F c₂ e.spec.right with
            | Option.none => Option.none
            | some (rv, c₃) =>
              match e.spec.evaluate lv rv with
              | Option.none => Option.none
              | some ret =>
                match lookupE c₃.parts name with
                | some _ => Option.none
                | Option.none => some (ret, ⟨(name, Element.set_value e ret) :: c₃.parts⟩) := rfl

/-! Association-list lemmas. -/

theorem lookupE_eraseE_self (ps : List (String × Element)) (n : String) :
    lookupE (eraseE ps n) n = Option.none := by
  induction ps with
  | nil => rfl
  | cons p ps ih =>
    obtain ⟨k, e⟩ := p
    by_cases h : k = n
    · simp [eraseE, h, ih]
    · simp [eraseE, lookupE, h, ih]

theorem lookupE_eraseE_ne (ps : List (String × Element)) {n m : String} (h : m ≠ n) :
    lookupE (eraseE ps n) m = lookupE ps m := by
  induction ps with
  | nil => rfl
  | cons p ps ih =>
    obtain ⟨k, e⟩ := p
    by_cases hk : k = n
    · subst hk
      have : ¬ (k = m) := fun hh => h hh.symm
      simp [eraseE, lookupE, this, ih]
    · by_cases hm : k = m
      · simp [eraseE, lookupE, hk, hm, h]
      · simp [eraseE, lookupE, hk, hm, ih]

theorem eraseE_length_le (ps : List (String × Element)) (n : String) :
    (eraseE ps n).length ≤ ps.length := by
  induction ps with
  | nil => simp [eraseE]
  | cons p ps ih =>
    obtain ⟨k, e⟩ := p
    by_cases h : k = n <;> simp [eraseE, h] <;> omega

theorem eraseE_length_lt (ps : List (String × Element)) {n : String} {e : Element}
    (h : lookupE ps n = some e) : (eraseE ps n).length < ps.length := by
  induction ps with
  | nil => simp [lookupE] at h
  | cons p ps ih =>
    obtain ⟨k, e'⟩ := p
    by_cases hk : k = n
    · have := eraseE_length_le ps n
      simp [eraseE, hk]
      omega
    · simp only [lookupE, if_neg hk] at h
      have := ih h
      simp [eraseE, hk]
      omega

/-! Monotonicity and determinism of the spec-side valuation. -/

theorem denoteF_mono : ∀ (g : Nat) {c : Circuit} {n : String} {v : Nat},
    denoteF g c n = some v → denoteF (g+1) c n = some v := by
  intro g
  induction g with
  | zero =>
    intro c n v h
    simp [denoteF] at h
  | succ g ih =>
    intro c n v h
    rw [denoteF_succ] at h
    rw [denoteF_succ]
    cases hl : lookupE c.parts n with
    | none => simp only [hl] at h ⊢; exact h
    | some e =>
      simp only [hl] at h ⊢
      cases hv : e.value with
      | some w => simp only [hv] at h ⊢; exact h
      | none =>
        simp only [hv] at h ⊢
        have hop : ∀ (i : Input) (w : Nat), denoteInput (denoteF g c) i = some w →
            denoteInput (denoteF (g+1) c) i = some w := by
          intro i w hi
          cases i with
          | None => exact hi
          | Value u => exact hi
          | Element m => exact ih hi
        cases hL : denoteInput (denoteF g c) e.spec.left with
        | none => rw [hL] at h; simp at h
        | some lv =>
          simp only [hL] at h
          cases hR : denoteInput (denoteF g c) e.spec.right with
          | none => rw [hR] at h; simp at h
          | some rv =>
            simp only [hR] at h
            rw [hop _ _ hL, hop _ _ hR]
            exact h

theorem denoteF_mono_le {g g' : Nat} {c : Circuit} {n : String} {v : Nat}
    (hle : g ≤ g') (h : denoteF g c n = some v) : denoteF g' c n = some v := by
  induction g' with
  | zero =>
    have : g = 0 := Nat.le_zero.mp hle
    subst this
    exact h
  | succ g' ih =>
    rcases Nat.lt_or_ge g (g'+1) with hlt | hge
    · exact denoteF_mono g' (ih (Nat.lt_succ_iff.mp hlt))
    · have : g = g' + 1 := Nat.le_antisymm hle hge
      subst this
      exact h

theorem denoteF_det {g g' : Nat} {c : Circuit} {n : String} {v v' : Nat}
    (h : denoteF g c n = some v) (h' : denoteF g' c n = some v') : v = v' := by
  rcases Nat.le_total g g' with hle | hle
  · have := denoteF_mono_le hle h
    rw [this] at h'
    exact Option.some.inj h'
  · have := denoteF_mono_le hle h'
    rw [this] at h
    exact (Option.some.inj h).symm

/-! A node that transitively uses itself has no terminating valuation. -/

theorem Uses.transitive {c : Circuit} {a b d : String}
    (h1 : Uses c a b) (h2 : Uses c b d) : Uses c a d := by
  induction h1 with
  | direct hl hv hop => exact Uses.step hl hv hop h2
  | step hl hv hop _ ih => exact Uses.step hl hv hop (ih h2)

theorem usesSelf_denoteF_none : ∀ (g : Nat) {c : Circuit} {a : String},
    Uses c a a → denoteF g c a = Option.none := by
  intro g
  induction g with
  | zero => intro c a _; rfl
  | succ g ih =>
    intro c a h
    obtain ⟨e, hl, hv, b, hop, hrest⟩ :
        ∃ e, lookupE c.parts a = some e ∧ e.value = Option.none ∧
          ∃ b, (e.spec.left = Input.Element b ∨ e.spec.right = Input.Element b) ∧
            (b = a ∨ Uses c b a) := by
      cases h with
      | direct hl hv hop => exact ⟨_, hl, hv, _, hop, Or.inl rfl⟩
      | step hl hv hop hu => exact ⟨_, hl, hv, _, hop, Or.inr hu⟩
    have hbnone : denoteF g c b = Option.none := by
      rcases hrest with rfl | hub
      · exact ih h
      · exact ih (Uses.transitive hub (Uses.direct hl hv hop))
    rw [denoteF_succ]
    simp only [hl, hv]
    rcases hop with hop | hop
    · rw [show denoteInput (denoteF g c) e.spec.left = Option.none by
        rw [hop]; exact hbnone]
    · cases hL : denoteInput (denoteF g c) e.spec.left with
      | none => simp only [hL]
      | some lv =>
        simp only [hL]
        rw [show denoteInput (denoteF g c) e.spec.right = Option.none by
          rw [hop]; exact hbnone]

/-! Frame relation: what a successful get_value may change in the map. -/

/-- One map entry before and after an evaluation: the key set, the node's
name and spec are preserved, and a cached value is never changed or
dropped (none may become some, nothing else moves). -/
def entryFrame : Option Element → Option Element → Prop
  | Option.none, Option.none => True
  | some e, some e' =>
      e'.name = e.name ∧ e'.spec = e.spec ∧ ∀ w, e.value = some w → e'.value = some w
  | _, _ => False

def frameC (c c' : Circuit) : Prop :=
  ∀ n, entryFrame (lookupE c.parts n) (lookupE c'.parts n)

theorem entryFrame_refl (o : Option Element) : entryFrame o o := by
  cases o with
  | none => trivial
  | some e => exact ⟨rfl, rfl, fun _ h => h⟩

theorem frameC_refl (c : Circuit) : frameC c c := fun _ => entryFrame_refl _

theorem entryFrame_trans {o₁ o₂ o₃ : Option Element}
    (h1 : entryFrame o₁ o₂) (h2 : entryFrame o₂ o₃) : entryFrame o₁ o₃ := by
  cases o₁ with
  | none =>
    cases o₂ with
    | none => cases o₃ with
      | none => trivial
      | some _ => exact absurd h2 (by simp [entryFrame])
    | some _ => exact absurd h1 (by simp [entryFrame])
  | some e₁ =>
    cases o₂ with
    | none => exact absurd h1 (by simp [entryFrame])
    | some e₂ =>
      cases o₃ with
      | none => exact absurd h2 (by simp [entryFrame])
      | some e₃ =>
        obtain ⟨hn1, hs1, hv1⟩ := h1
        obtain ⟨hn2, hs2, hv2⟩ := h2
        exact ⟨hn2.trans hn1, hs2.trans hs1, fun w hw => hv2 w (hv1 w hw)⟩

theorem frameC_trans {c₁ c₂ c₃ : Circuit}
    (h1 : frameC c₁ c₂) (h2 : frameC c₂ c₃) : frameC c₁ c₃ :=
  fun n => entryFrame_trans (h1 n) (h2 n)

theorem frame_of_get_valueF : ∀ (F : Nat) {c : Circuit} {n : String} {v : Nat} {c' : Circuit},
    get_valueF F c n = some (v, c') → frameC c c' := by
  intro F
  induction F with
  | zero =>
    intro c n v c' h
    simp [get_valueF] at h
  | succ F ih =>
    intro c n v c' h
    have riFrame : ∀ {c : Circuit} {i : Input} {v : Nat} {c' : Circuit},
        resolve_inputF F c i = some (v, c') → frameC c c' := by
      intro c i v c' h
      cases i with
      | None =>
        simp only [resolve_inputF] at h
        obtain ⟨-, rfl⟩ := Prod.mk.injEq .. ▸ Option.some.inj h
        exact frameC_refl _
      | Value u =>
        simp only [resolve_inputF] at h
        obtain ⟨-, rfl⟩ := Prod.mk.injEq .. ▸ Option.some.inj h
        exact frameC_refl _
      | Element m => exact ih h
    rw [get_valueF_succ] at h
    cases hl : lookupE c.parts n with
    | none =>
      simp only [hl] at h
      obtain ⟨-, rfl⟩ := Prod.mk.injEq .. ▸ Option.some.inj h
      exact frameC_refl _
    | some e =>
      simp only [hl] at h
      cases hv : e.value with
      | some w =>
        simp only [hv] at h
        obtain ⟨-, rfl⟩ := Prod.mk.injEq .. ▸ Option.some.inj h
        exact frameC_refl _
      | none =>
        simp only [hv] at h
        cases hL : resolve_inputF F ⟨eraseE c.parts n⟩ e.spec.left with
        | none => rw [hL] at h; simp at h
        | some p =>
          obtain ⟨lv, c₂⟩ := p
          simp only [hL] at h
          cases hR : resolve_inputF F c₂ e.spec.right with
          | none => rw [hR] at h; simp at h
          | some q =>
            obtain ⟨rv, c₃⟩ := q
            simp only [hR] at h
            cases hE : e.spec.evaluate lv rv with
            | none => rw [hE] at h; simp at h
            | some ret =>
              simp only [hE] at h
              cases hIns : lookupE c₃.parts n with
              | some _ => rw [hIns] at h; simp at h
              | none =>
                simp only [hIns] at h
                obtain ⟨-, rfl⟩ := Prod.mk.injEq .. ▸ Option.some.inj h
                have hf : frameC ⟨eraseE c.parts n⟩ c₃ :=
                  frameC_trans (riFrame hL) (riFrame hR)
                intro m
                by_cases hm : n = m
                · subst hm
                  simp only [lookupE, if_pos rfl, hl]
                  exact ⟨rfl, rfl, fun w hw => by rw [hv] at hw; cases hw⟩
                · have hfm := hf m
                  rw [show lookupE (eraseE c.parts n) m = lookupE c.parts m from
                    lookupE_eraseE_ne c.parts (fun hh => hm hh.symm)] at hfm
                  simpa only [lookupE, if_neg hm] using hfm

/-! The evaluator never grows the circuit. -/

theorem get_valueF_length_le : ∀ (F : Nat) {c : Circuit} {n : String} {v : Nat} {c' : Circuit},
    get_valueF F c n = some (v, c') → c'.parts.length ≤ c.parts.length := by
  intro F
  induction F with
  | zero =>
    intro c n v c' h
    simp [get_valueF] at h
  | succ F ih =>
    intro c n v c' h
    have riLen : ∀ {c : Circuit} {i : Input} {v : Nat} {c' : Circuit},
        resolve_inputF F c i = some (v, c') → c'.parts.length ≤ c.parts.length := by
      intro c i v c' h
      cases i with
      | None =>
        simp only [resolve_inputF] at h
        obtain ⟨-, rfl⟩ := Prod.mk.injEq .. ▸ Option.some.inj h
        exact Nat.le_refl _
      | Value u =>
        simp only [resolve_inputF] at h
        obtain ⟨-, rfl⟩ := Prod.mk.injEq .. ▸ Option.some.inj h
        exact Nat.le_refl _
      | Element m => exact ih h
    rw [get_valueF_succ] at h
    cases hl : lookupE c.parts n with
    | none =>
      simp only [hl] at h
      obtain ⟨-, rfl⟩ := Prod.mk.injEq .. ▸ Option.some.inj h
      exact Nat.le_refl _
    | some e =>
      simp only [hl] at h
      cases hv : e.value with
      | some w =>
        simp only [hv] at h
        obtain ⟨-, rfl⟩ := Prod.mk.injEq .. ▸ Option.some.inj h
        exact Nat.le_refl _
      | none =>
        simp only [hv] at h
        cases hL : resolve_inputF F ⟨eraseE c.parts n⟩ e.spec.left with
        | none => rw [hL] at h; simp at h
        | some p =>
          obtain ⟨lv, c₂⟩ := p
          simp only [hL] at h
          cases hR : resolve_inputF F c₂ e.spec.right with
          | none => rw [hR] at h; simp at h
          | some q =>
            obtain ⟨rv, c₃⟩ := q
            simp only [hR] at h
            cases hE : e.spec.evaluate lv rv with
            | none => rw [hE] at h; simp at h
            | some ret =>
              simp only [hE] at h
              cases hIns : lookupE c₃.parts n with
              | some _ => rw [hIns] at h; simp at h
              | none =>
                simp only [hIns] at h
                obtain ⟨-, rfl⟩ := Prod.mk.injEq .. ▸ Option.some.inj h
                have h2 : c₂.parts.length ≤ (eraseE c.parts n).length := riLen hL
                have h3 : c₃.parts.length ≤ c₂.parts.length := riLen hR
                have h4 : (eraseE c.parts n).length < c.parts.length :=
                  eraseE_length_lt c.parts hl
                simp only [List.length_cons]
                omega

theorem resolve_inputF_length_le (F : Nat) {c : Circuit} {i : Input} {v : Nat} {c' : Circuit}
    (h : resolve_inputF F c i = some (v, c')) : c'.parts.length ≤ c.parts.length := by
  cases i with
  | None =>
    simp only [resolve_inputF] at h
    obtain ⟨-, rfl⟩ := Prod.mk.injEq .. ▸ Option.some.inj h
    exact Nat.le_refl _
  | Value u =>
    simp only [resolve_inputF] at h
    obtain ⟨-, rfl⟩ := Prod.mk.injEq .. ▸ Option.some.inj h
    exact Nat.le_refl _
  | Element m => exact get_valueF_length_le F h

/-! Simulation: on any node whose spec-side valuation succeeds, the
evaluator succeeds with the same value.  The invariant ties the evaluator's
working circuit to the original one while some nodes are checked out. -/

/-- One entry of the evolving circuit against the original: same spec and
name, and the cache either untouched or newly filled with a value the
spec-side valuation assigns to this node over the original circuit. -/
def entryMatch (c₀ : Circuit) (n : String) : Option Element → Option Element → Prop
  | some e₀, some e =>
      e.spec = e₀.spec ∧ e.name = e₀.name ∧
        (e.value = e₀.value ∨
          (e₀.value = Option.none ∧ ∃ g w, denoteF g c₀ n = some w ∧ e.value = some w))
  | Option.none, Option.none => True
  | _, _ => False

/-- The names in R are checked out of the working map (they are present and
uncached in the original); every other name matches its original entry. -/
def CINV (c₀ : Circuit) (R : String → Prop) (c : Circuit) : Prop :=
  ∀ n, (R n → lookupE c.parts n = Option.none ∧
          ∃ e₀, lookupE c₀.parts n = some e₀ ∧ e₀.value = Option.none)
     ∧ (¬ R n → entryMatch c₀ n (lookupE c₀.parts n) (lookupE c.parts n))

theorem CINV_refl (c₀ : Circuit) : CINV c₀ (fun _ => False) c₀ := by
  intro n
  constructor
  · intro h; cases h
  · intro _
    cases hl : lookupE c₀.parts n with
    | none => trivial
    | some e => exact ⟨rfl, rfl, Or.inl rfl⟩

theorem mainSim : ∀ (g : Nat) (c₀ : Circuit) (R : String → Prop) (m : String) (w : Nat)
    (c : Circuit) (F : Nat),
    denoteF g c₀ m = some w → CINV c₀ R c → (∀ r, R r → Uses c₀ r m) → ¬ R m →
    c.parts.length < F →
    ∃ c', get_valueF F c m = some (w, c') ∧ CINV c₀ R c' := by
  intro g
  induction g with
  | zero =>
    intro c₀ R m w c F hden _ _ _ _
    simp [denoteF] at hden
  | succ g ih =>
    intro c₀ R m w c F hden hinv hSC hmR hF
    obtain ⟨F', rfl⟩ : ∃ F', F = F' + 1 := ⟨F - 1, by omega⟩
    rw [denoteF_succ] at hden
    cases h0 : lookupE c₀.parts m with
    | none =>
      simp only [h0] at hden
      obtain rfl := Option.some.inj hden
      have hm := (hinv m).2 hmR
      rw [h0] at hm
      cases hc : lookupE c.parts m with
      | some e => rw [hc] at hm; exact absurd hm (by simp [entryMatch])
      | none =>
        refine ⟨c, ?_, hinv⟩
        rw [get_valueF_succ]
        simp only [hc]
    | some e₀ =>
      simp only [h0] at hden
      have hm := (hinv m).2 hmR
      rw [h0] at hm
      cases hc : lookupE c.parts m with
      | none => rw [hc] at hm; exact absurd hm (by simp [entryMatch])
      | some e =>
        rw [hc] at hm
        obtain ⟨hspec, hname, hcache⟩ := hm
        cases hv0 : e₀.value with
        | some v =>
          simp only [hv0] at hden
          obtain rfl := Option.some.inj hden
          have hevalue : e.value = some v := by
            rcases hcache with h | ⟨h0v, -⟩
            · rw [h, hv0]
            · rw [h0v] at hv0; cases hv0
          refine ⟨c, ?_, hinv⟩
          rw [get_valueF_succ]
          simp only [hc, hevalue]
        | none =>
          simp only [hv0] at hden
          cases hdL : denoteInput (denoteF g c₀) e₀.spec.left with
          | none => rw [hdL] at hden; simp at hden
          | some lv =>
          simp only [hdL] at hden
          cases hdR : denoteInput (denoteF g c₀) e₀.spec.right with
          | none => rw [hdR] at hden; simp at hden
          | some rv =>
          simp only [hdR] at hden
          have hdenM : denoteF (g+1) c₀ m = some w := by
            rw [denoteF_succ]
            simp only [h0, hv0, hdL, hdR]
            exact hden
          rcases hcache with hcv | ⟨-, g', w', hdm, hcv⟩
          case inr.intro.intro.intro.intro =>
            obtain rfl : w' = w := denoteF_det hdm hdenM
            refine ⟨c, ?_, hinv⟩
            rw [get_valueF_succ]
            simp only [hc, hcv]
          case inl =>
          have hev : e.value = Option.none := by rw [hcv, hv0]
          have hUsesDir : ∀ b, (e₀.spec.left = Input.Element b ∨ e₀.spec.right = Input.Element b) →
              Uses c₀ m b := fun b hb => Uses.direct h0 hv0 hb
          have hinv' : CINV c₀ (fun x => R x ∨ x = m) ⟨eraseE c.parts m⟩ := by
            intro n
            constructor
            · intro hn
              rcases hn with hn | rfl
              · obtain ⟨hcn, he₀⟩ := (hinv n).1 hn
                have hnm : n ≠ m := fun hh => hmR (hh ▸ hn)
                refine ⟨?_, he₀⟩
                show lookupE (eraseE c.parts m) n = Option.none
                rw [lookupE_eraseE_ne c.parts hnm]
                exact hcn
              · exact ⟨lookupE_eraseE_self c.parts n, e₀, h0, hv0⟩
            · intro hn
              have hnR : ¬ R n := fun h => hn (Or.inl h)
              have hnm : n ≠ m := fun h => hn (Or.inr h)
              have h2 := (hinv n).2 hnR
              show entryMatch c₀ n (lookupE c₀.parts n) (lookupE (eraseE c.parts m) n)
              rw [lookupE_eraseE_ne c.parts hnm]
              exact h2
          have handleOp : ∀ (i : Input) (cIn : Circuit) (F₁ : Nat) (u : Nat),
              (e₀.spec.left = i ∨ e₀.spec.right = i) →
              denoteInput (denoteF g c₀) i = some u →
              CINV c₀ (fun x => R x ∨ x = m) cIn → cIn.parts.length < F₁ →
              ∃ c₂, resolve_inputF F₁ cIn i = some (u, c₂) ∧
                CINV c₀ (fun x => R x ∨ x = m) c₂ := by
            intro i cIn F₁ u hi hdi hinvIn hlen
            cases i with
            | None =>
              obtain rfl : (0 : Nat) = u := Option.some.inj hdi
              exact ⟨cIn, rfl, hinvIn⟩
            | Value x =>
              obtain rfl : x = u := Option.some.inj hdi
              exact ⟨cIn, rfl, hinvIn⟩
            | Element b =>
              have hdb : denoteF g c₀ b = some u := hdi
              have hUmb : Uses c₀ m b := hUsesDir b hi
              have hbR' : ¬ (R b ∨ b = m) := by
                intro hb
                rcases hb with hb | rfl
                · have hbb : Uses c₀ b b := Uses.transitive (hSC b hb) hUmb
                  have hnone := usesSelf_denoteF_none g hbb
                  rw [hnone] at hdb
                  exact Option.noConfusion hdb
                · have hnone := usesSelf_denoteF_none (g+1) hUmb
                  rw [hnone] at hdenM
                  exact Option.noConfusion hdenM
              have hSC' : ∀ r, (R r ∨ r = m) → Uses c₀ r b := by
                intro r hr
                rcases hr with hr | rfl
                · exact Uses.transitive (hSC r hr) hUmb
                · exact hUmb
              exact ih c₀ (fun x => R x ∨ x = m) b u cIn F₁ hdb hinvIn hSC' hbR' hlen
          have hlenE : (⟨eraseE c.parts m⟩ : Circuit).parts.length < F' := by
            have h1 : (eraseE c.parts m).length < c.parts.length := eraseE_length_lt c.parts hc
            show (eraseE c.parts m).length < F'
            omega
          obtain ⟨c₂, hgL, hinv₂⟩ :=
            handleOp e₀.spec.left ⟨eraseE c.parts m⟩ F' lv (Or.inl rfl) hdL hinv' hlenE
          have hlen₂ : c₂.parts.length < F' := by
            have h1 := resolve_inputF_length_le F' hgL
            have h2 : (eraseE c.parts m).length < c.parts.length := eraseE_length_lt c.parts hc
            have h3 : (⟨eraseE c.parts m⟩ : Circuit).parts.length = (eraseE c.parts m).length := rfl
            omega
          obtain ⟨c₃, hgR, hinv₃⟩ :=
            handleOp e₀.spec.right c₂ F' rv (Or.inr rfl) hdR hinv₂ hlen₂
          have hevalc : e.spec.evaluate lv rv = some w := by rw [hspec]; exact hden
          have hc₃m : lookupE c₃.parts m = Option.none := ((hinv₃ m).1 (Or.inr rfl)).1
          refine ⟨⟨(m, Element.set_value e w) :: c₃.parts⟩, ?_, ?_⟩
          · rw [get_valueF_succ]
            simp only [hc, hev, hspec, hgL, hgR, hevalc, hden, hc₃m]
          · intro n
            constructor
            · intro hn
              have hnm : n ≠ m := fun hh => hmR (hh ▸ hn)
              obtain ⟨h1, h2⟩ := (hinv₃ n).1 (Or.inl hn)
              refine ⟨?_, h2⟩
              show lookupE ((m, Element.set_value e w) :: c₃.parts) n = Option.none
              simp only [lookupE, if_neg (fun hh : m = n => hnm hh.symm)]
              exact h1
            · intro hn
              by_cases hnm : n = m
              · subst hnm
                rw [h0]
                show entryMatch c₀ n (some e₀)
                  (lookupE ((n, Element.set_value e w) :: c₃.parts) n)
                simp only [lookupE, if_pos rfl]
                exact ⟨hspec, hname, Or.inr ⟨hv0, g+1, w, hdenM, rfl⟩⟩
              · have hn' : ¬ (R n ∨ n = m) := by
                  intro hh
                  rcases hh with hh | hh
                  · exact hn hh
                  · exact hnm hh
                have h2 := (hinv₃ n).2 hn'
                show entryMatch c₀ n (lookupE c₀.parts n)
                  (lookupE ((m, Element.set_value e w) :: c₃.parts) n)
                simp only [lookupE, if_neg (fun hh : m = n => hnm hh.symm)]
                exact h2

/-! Lemmas about force_value and clear_cache. -/

theorem lookupE_force_some {ps : List (String × Element)} {name : String} {e : Element}
    (v : Nat) (h : lookupE ps name = some e) :
    lookupE (ps.map (fun p => if p.1 = name then (p.1, p.2.set_value v) else p)) name
      = some (e.set_value v) := by
  induction ps with
  | nil => simp [lookupE] at h
  | cons p ps ih =>
    obtain ⟨k, e'⟩ := p
    simp only [List.map_cons]
    by_cases hk : k = name
    · subst hk
      simp only [lookupE, if_pos rfl] at h
      obtain rfl := Option.some.inj h
      rw [if_pos rfl]
      simp [lookupE]
    · rw [if_neg hk]
      simp only [lookupE, if_neg hk] at h ⊢
      exact ih h

theorem force_value_absent {c : Circuit} {name : String} (v : Nat)
    (h : lookupE c.parts name = Option.none) : c.force_value name v = c := by
  unfold Circuit.force_value
  have : ∀ ps : List (String × Element), lookupE ps name = Option.none →
      ps.map (fun p => if p.1 = name then (p.1, p.2.set_value v) else p) = ps := by
    intro ps
    induction ps with
    | nil => intro _; rfl
    | cons p ps ih =>
      intro hps
      obtain ⟨k, e'⟩ := p
      by_cases hk : k = name
      · simp [lookupE, hk] at hps
      · simp only [lookupE, if_neg hk] at hps
        simp only [List.map_cons, if_neg hk]
        rw [ih hps]
  cases c with
  | mk ps => exact congrArg Circuit.mk (this ps h)

theorem clear_cache_force_value (c : Circuit) (name : String) (v : Nat) :
    (c.force_value name v).clear_cache = c.clear_cache := by
  unfold Circuit.force_value Circuit.clear_cache
  refine congrArg Circuit.mk ?_
  rw [List.map_map]
  induction c.parts with
  | nil => rfl
  | cons p ps ih =>
    obtain ⟨k, e⟩ := p
    by_cases hk : k = name
    · simp only [List.map_cons, Function.comp, if_pos hk]
      rw [ih]
      simp [Element.set_value, Element.clear_value]
    · simp only [List.map_cons, Function.comp, if_neg hk]
      rw [ih]

/-! Concrete circuits used to instantiate the theorems below. -/

/-- A one-node circuit: x defined by the literal 123, cache empty. -/
def litCircuit : Circuit :=
  ⟨[("x", ⟨⟨Input.Value 123, Input.None, Operation.Value⟩, "x", Option.none⟩)]⟩

/-- litCircuit after resolving x once. -/
def litCircuitResolved : Circuit :=
  ⟨[("x", ⟨⟨Input.Value 123, Input.None, Operation.Value⟩, "x", some 123⟩)]⟩

/-- x = 123, y = 456, d = x AND y, caches empty. -/
def andCircuit : Circuit := ⟨[
  ("x", ⟨⟨Input.Value 123, Input.None, Operation.Value⟩, "x", Option.none⟩),
  ("y", ⟨⟨Input.Value 456, Input.None, Operation.Value⟩, "y", Option.none⟩),
  ("d", ⟨⟨Input.Element "x", Input.Element "y", Operation.And⟩, "d", Option.none⟩)]⟩

/-! The claims. -/

/-- C1: the claim says a true dependency cycle makes resolve fail fatally
with a circular-reference error.  The code does not do this: on the circuit
p -> q, q -> p (each a bare passthrough reference to the other), resolve of
p returns 0 and caches 0 for both nodes.  The node being evaluated is
removed from the map, so the re-entrant lookup takes the absent-name branch
and returns the default 0; the reinsertion panic that was meant to catch a
circular reference never fires.  This theorem evaluates the evaluator at
that failing input. -/
theorem cycle_pq_resolves_to_zero :
    cyclePQ = some ⟨[
      ("q", ⟨⟨Input.Element "p", Input.None, Operation.Value⟩, "q", Option.none⟩),
      ("p", ⟨⟨Input.Element "q", Input.None, Operation.Value⟩, "p", Option.none⟩)]⟩ ∧
    Circuit.get_value ⟨[
      ("q", ⟨⟨Input.Element "p", Input.None, Operation.Value⟩, "q", Option.none⟩),
      ("p", ⟨⟨Input.Element "q", Input.None, Operation.Value⟩, "p", Option.none⟩)]⟩ "p"
      = some (0, ⟨[
        ("p", ⟨⟨Input.Element "q", Input.None, Operation.Value⟩, "p", some 0⟩),
        ("q", ⟨⟨Input.Element "p", Input.None, Operation.Value⟩, "q", some 0⟩)]⟩) :=
  ⟨rfl, rfl⟩

/-- C2: for every node whose full dependency closure is acyclic (stated as:
the spec-side valuation denoteF, which applies each node's operation to the
recursively resolved values of its operands, terminates on it at some
fuel), resolve terminates successfully and returns exactly that value. -/
theorem resolve_agrees_with_spec_valuation (c : Circuit) (name : String) (fuel v : Nat)
    (h : denoteF fuel c name = some v) :
    ∃ c', Circuit.get_value c name = some (v, c') := by
  obtain ⟨c', hg, -⟩ := mainSim fuel c (fun _ => False) name v c (c.parts.length + 1) h
    (CINV_refl c) (fun r hr => hr.elim) (fun hf => hf) (Nat.lt_succ_self _)
  exact ⟨c', hg⟩

theorem resolve_agrees_with_spec_valuation_witness :
    denoteF 2 andCircuit "d" = some 72 ∧
      ∃ c', Circuit.get_value andCircuit "d" = some (72, c') :=
  ⟨rfl, resolve_agrees_with_spec_valuation andCircuit "d" 2 72 rfl⟩

/-- C3 counterexample: the claim says a shift amount of 16 or more
saturates to 0.  In the code the u16 shift overflows: a debug build panics
(none here), a release build wraps the shift amount; either way the result
is not some 0. -/
theorem shift_overflow_faults_counterexample :
    (⟨Input.None, Input.None, Operation.LShift⟩ : ElementSpec).evaluate 1 16 = Option.none ∧
    (⟨Input.None, Input.None, Operation.RShift⟩ : ElementSpec).evaluate 1 16 = Option.none ∧
    ¬ (⟨Input.None, Input.None, Operation.LShift⟩ : ElementSpec).evaluate 1 16 = some 0 ∧
    ¬ (⟨Input.None, Input.None, Operation.RShift⟩ : ElementSpec).evaluate 1 16 = some 0 := by
  decide

/-- C3 amended: for shift amounts below 16, LSHIFT is multiplication by a
power of two truncated to 16 bits and RSHIFT is division by a power of two;
for amounts of 16 or more the shift overflows and evaluation aborts instead
of saturating to 0. -/
theorem shift_semantics (l r : Nat) :
    (r < 16 →
      (⟨Input.None, Input.None, Operation.LShift⟩ : ElementSpec).evaluate l r
          = some (l * 2 ^ r % 65536) ∧
      (⟨Input.None, Input.None, Operation.RShift⟩ : ElementSpec).evaluate l r
          = some (l / 2 ^ r))
    ∧ (16 ≤ r →
      (⟨Input.None, Input.None, Operation.LShift⟩ : ElementSpec).evaluate l r = Option.none ∧
      (⟨Input.None, Input.None, Operation.RShift⟩ : ElementSpec).evaluate l r = Option.none) := by
  constructor
  · intro h
    constructor <;> simp [ElementSpec.evaluate, h]
  · intro h
    have h' : ¬ r < 16 := by omega
    constructor <;> simp [ElementSpec.evaluate, h']

theorem shift_semantics_witness :
    ((3 : Nat) < 16 ∧
      (⟨Input.None, Input.None, Operation.LShift⟩ : ElementSpec).evaluate 5 3 = some 40 ∧
      (⟨Input.None, Input.None, Operation.RShift⟩ : ElementSpec).evaluate 5 3 = some 0) ∧
    ((16 : Nat) ≤ 20 ∧
      (⟨Input.None, Input.None, Operation.LShift⟩ : ElementSpec).evaluate 5 20 = Option.none ∧
      (⟨Input.None, Input.None, Operation.RShift⟩ : ElementSpec).evaluate 5 20 = Option.none) :=
  ⟨⟨by decide, (shift_semantics 5 3).1 (by decide)⟩,
   ⟨by decide, (shift_semantics 5 20).2 (by decide)⟩⟩

/-- C4 counterexample: the claim says malformed rule text makes register
fail with an InvalidInput error surfaced to the caller as a recoverable
failure rather than aborting.  In the code the unrecognised operator is
unwrapped inside ElementSpec::from_str (a panic, none here), and
add_element unwraps the whole parse result, so both malformed shapes abort
add_element; no typed error ever reaches its caller. -/
theorem malformed_rule_aborts_counterexample :
    ElementSpec.from_str "1 NAND 2" = Option.none ∧
    Circuit.add_element Circuit.new "a" "1 NAND 2" = Option.none ∧
    ElementSpec.from_str "1 2 3 4" = some (Except.error ⟨⟩) ∧
    Circuit.add_element Circuit.new "a" "1 2 3 4" = Option.none :=
  ⟨rfl, rfl, rfl, rfl⟩

/-- C4 amended: with exactly three tokens and an unrecognised middle
operator, ElementSpec::from_str panics (none); with a token count other
than 1, 2 or 3 it returns Err(InvalidInput); in both cases add_element
unwraps and therefore aborts, surfacing nothing to its caller. -/
theorem malformed_rule_behavior (c : Circuit) (name s : String) :
    (∀ a b d, splitSpace s = [a, b, d] → Operation.from_str b = Option.none →
        ElementSpec.from_str s = Option.none ∧
          Circuit.add_element c name s = Option.none)
    ∧ (∀ n, (splitSpace s).length = n → n ≠ 1 → n ≠ 2 → n ≠ 3 →
        ElementSpec.from_str s = some (Except.error ⟨⟩) ∧
          Circuit.add_element c name s = Option.none) := by
  constructor
  · intro a b d hs hb
    have h1 : ElementSpec.from_str s = Option.none := by
      unfold ElementSpec.from_str
      rw [hs]
      simp [hb]
    exact ⟨h1, by unfold Circuit.add_element; rw [h1]⟩
  · intro n hn h1 h2 h3
    have hs : ElementSpec.from_str s = some (Except.error ⟨⟩) := by
      unfold ElementSpec.from_str
      rcases hsp : splitSpace s with - | ⟨a, - | ⟨b, - | ⟨d, - | ⟨x, rest⟩⟩⟩⟩
      · rfl
      · rw [hsp] at hn; simp at hn; omega
      · rw [hsp] at hn; simp at hn; omega
      · rw [hsp] at hn; simp at hn; omega
      · rfl
    exact ⟨hs, by unfold Circuit.add_element; rw [hs]⟩

theorem malformed_rule_behavior_witness :
    (splitSpace "1 NAND 2" = ["1", "NAND", "2"] ∧
      Operation.from_str "NAND" = Option.none ∧
      ElementSpec.from_str "1 NAND 2" = Option.none ∧
      Circuit.add_element Circuit.new "w" "1 NAND 2" = Option.none) ∧
    ((splitSpace "1 2 3 4").length = 4 ∧
      ElementSpec.from_str "1 2 3 4" = some (Except.error ⟨⟩) ∧
      Circuit.add_element Circuit.new "w" "1 2 3 4" = Option.none) := by
  refine ⟨⟨rfl, rfl, ?_⟩, ⟨rfl, ?_⟩⟩
  · exact (malformed_rule_behavior Circuit.new "w" "1 NAND 2").1 "1" "NAND" "2" rfl rfl
  · exact (malformed_rule_behavior Circuit.new "w" "1 2 3 4").2 4 rfl
      (by decide) (by decide) (by decide)

/-- C5: resolving a name that is absent from the circuit returns 0 and
leaves the circuit untouched, and hence a Reference operand naming an
unregistered node contributes 0 to its consumer. -/
theorem resolve_absent_returns_zero (c : Circuit) (name : String)
    (h : lookupE c.parts name = Option.none) :
    Circuit.get_value c name = some (0, c) ∧
      Circuit.resolve_input c (Input.Element name) = some (0, c) := by
  have h1 : Circuit.get_value c name = some (0, c) := by
    unfold Circuit.get_value
    rw [get_valueF_succ]
    simp only [h]
  exact ⟨h1, h1⟩

theorem resolve_absent_returns_zero_witness :
    lookupE litCircuit.parts "nope" = Option.none ∧
      (Circuit.get_value litCircuit "nope" = some (0, litCircuit) ∧
        Circuit.resolve_input litCircuit (Input.Element "nope") = some (0, litCircuit)) :=
  ⟨rfl, resolve_absent_returns_zero litCircuit "nope" rfl⟩

/-- C6: a successful resolve leaves the node cached (or the circuit
untouched), so an immediate second resolve of the same name returns the
identical value through the cache-hit (or absent-name) branch and leaves
the circuit state unchanged. -/
theorem resolve_idempotent (c : Circuit) (name : String) (v : Nat) (c' : Circuit)
    (h : Circuit.get_value c name = some (v, c')) :
    Circuit.get_value c' name = some (v, c') := by
  unfold Circuit.get_value at h
  rw [get_valueF_succ] at h
  cases hl : lookupE c.parts name with
  | none =>
    simp only [hl] at h
    obtain ⟨rfl, rfl⟩ := Prod.mk.injEq .. ▸ Option.some.inj h
    unfold Circuit.get_value
    rw [get_valueF_succ]
    simp only [hl]
  | some e =>
    simp only [hl] at h
    cases hv : e.value with
    | some u =>
      simp only [hv] at h
      obtain ⟨rfl, rfl⟩ := Prod.mk.injEq .. ▸ Option.some.inj h
      unfold Circuit.get_value
      rw [get_valueF_succ]
      simp only [hl, hv]
    | none =>
      simp only [hv] at h
      cases hL : resolve_inputF c.parts.length ⟨eraseE c.parts name⟩ e.spec.left with
      | none => rw [hL] at h; simp at h
      | some p =>
        obtain ⟨lv, c₂⟩ := p
        simp only [hL] at h
        cases hR : resolve_inputF c.parts.length c₂ e.spec.right with
        | none => rw [hR] at h; simp at h
        | some q =>
          obtain ⟨rv, c₃⟩ := q
          simp only [hR] at h
          cases hE : e.spec.evaluate lv rv with
          | none => rw [hE] at h; simp at h
          | some ret =>
            simp only [hE] at h
            cases hIns : lookupE c₃.parts name with
            | some _ => rw [hIns] at h; simp at h
            | none =>
              simp only [hIns] at h
              obtain ⟨rfl, rfl⟩ := Prod.mk.injEq .. ▸ Option.some.inj h
              unfold Circuit.get_value
              rw [get_valueF_succ]
              simp [lookupE, Element.set_value]

theorem resolve_idempotent_witness :
    Circuit.get_value litCircuit "x" = some (123, litCircuitResolved) ∧
      Circuit.get_value litCircuitResolved "x" = some (123, litCircuitResolved) :=
  ⟨rfl, resolve_idempotent litCircuit "x" 123 litCircuitResolved rfl⟩

/-- C7: invalidate_all clears the cache of every node unconditionally,
force-set values included: clearing after a force is the same circuit as
clearing without it, every cache is empty afterwards, and any subsequent
resolve recomputes from the specs exactly as on the force-free circuit. -/
theorem invalidate_all_discards_forced (c : Circuit) (name : String) (v : Nat) :
    (c.force_value name v).clear_cache = c.clear_cache ∧
      (∀ p, p ∈ c.clear_cache.parts → p.2.value = Option.none) ∧
      (∀ n, Circuit.get_value ((c.force_value name v).clear_cache) n
          = Circuit.get_value c.clear_cache n) := by
  have h1 := clear_cache_force_value c name v
  refine ⟨h1, ?_, fun n => by rw [h1]⟩
  intro p hp
  obtain ⟨q, hq, rfl⟩ := List.mem_map.mp hp
  rfl

/-- C8: forcing a present node and resolving it immediately returns
exactly the forced value through the cache, bypassing the spec; forcing an
absent name is a silent no-op. -/
theorem force_then_resolve (c : Circuit) (name : String) (v : Nat) (_hv : v < 65536) :
    (∀ e, lookupE c.parts name = some e →
        Circuit.get_value (c.force_value name v) name = some (v, c.force_value name v))
    ∧ (lookupE c.parts name = Option.none → c.force_value name v = c) := by
  constructor
  · intro e he
    have hl : lookupE (c.force_value name v).parts name = some (e.set_value v) :=
      lookupE_force_some v he
    unfold Circuit.get_value
    rw [get_valueF_succ]
    simp [hl, Element.set_value]
  · intro he
    exact force_value_absent v he

theorem force_then_resolve_witness :
    (7 : Nat) < 65536 ∧
      lookupE litCircuit.parts "x"
        = some ⟨⟨Input.Value 123, Input.None, Operation.Value⟩, "x", Option.none⟩ ∧
      Circuit.get_value (litCircuit.force_value "x" 7) "x"
        = some (7, litCircuit.force_value "x" 7) ∧
      lookupE litCircuit.parts "nah" = Option.none ∧
      litCircuit.force_value "nah" 7 = litCircuit :=
  ⟨by decide, rfl,
   (force_then_resolve litCircuit "x" 7 (by decide)).1 _ rfl,
   rfl,
   (force_then_resolve litCircuit "nah" 7 (by decide)).2 rfl⟩

/-- C9: while a node is being evaluated its entry is removed from the map,
so a direct self-reference in its own operands resolves through the
absent-name branch to 0 without aborting: a node defined as itself OR v
resolves to v, and the rule text of the spec's example parses to exactly
that node. -/
theorem self_reference_defaults_to_zero (name : String) (v : Nat) :
    Circuit.get_value
        ⟨[(name, ⟨⟨Input.Element name, Input.Value v, Operation.Or⟩, name, Option.none⟩)]⟩ name
      = some (v,
        ⟨[(name, ⟨⟨Input.Element name, Input.Value v, Operation.Or⟩, name, some v⟩)]⟩) ∧
    Circuit.add_element Circuit.new "a" "a OR 5"
      = some ⟨[("a", ⟨⟨Input.Element "a", Input.Value 5, Operation.Or⟩, "a", Option.none⟩)]⟩ := by
  constructor
  · show get_valueF 2 _ name = _
    rw [get_valueF_succ]
    simp only [lookupE, if_pos rfl, eraseE]
    have hnil : get_valueF 1 (⟨[]⟩ : Circuit) name = some (0, (⟨[]⟩ : Circuit)) := rfl
    simp only [resolve_inputF, hnil, ElementSpec.evaluate]
    have hz : Nat.lor 0 v = v := Nat.zero_or v
    simp [hnil, hz, Element.set_value, lookupE]
  · rfl

/-- C10: a successful resolve never changes the set of registered names and
never modifies a node's name or spec; the only change is that cache fields
may go from empty to set, while already-cached values are kept as they
were. -/
theorem resolve_preserves_structure (c : Circuit) (name : String) (v : Nat) (c' : Circuit)
    (h : Circuit.get_value c name = some (v, c')) : frameC c c' :=
  frame_of_get_valueF _ h

theorem resolve_preserves_structure_witness :
    Circuit.get_value litCircuit "x" = some (123, litCircuitResolved) ∧
      frameC litCircuit litCircuitResolved :=
  ⟨rfl, resolve_preserves_structure litCircuit "x" 123 litCircuitResolved rfl⟩
